import Mathlib

/-!
Shallow embedding of the `defindex-distributor` Soroban contract
(`src/contracts/defindex-distributor/src/lib.rs`) and proofs about its
`distribute` entry point.

Modelling conventions:
* `Address` is an abstract identifier, modelled as `Nat`.
* `i128` values are modelled as `Int` together with explicit range checks
  (`inI128`), mirroring the contract's use of `checked_add` / `checked_sub`.
* The external vault (deposit result, `get_asset_amounts_per_shares` result)
  and the token transfers are modelled as an oracle environment `ExtEnv`;
  every external invocation the contract performs is recorded in a trace of
  `ExtCall` entries, and a Soroban panic is modelled as `Except.error`.
-/

set_option maxRecDepth 4000

namespace DefindexDistributor

abbrev Address := Nat

instance {ε α : Type} [DecidableEq ε] [DecidableEq α] : DecidableEq (Except ε α) :=
  fun x y =>
    match x, y with
    | .ok a, .ok b =>
      if h : a = b then isTrue (by rw [h]) else isFalse (fun hh => by cases hh; exact h rfl)
    | .error a, .error b =>
      if h : a = b then isTrue (by rw [h]) else isFalse (fun hh => by cases hh; exact h rfl)
    | .ok _, .error _ => isFalse (fun hh => by cases hh)
    | .error _, .ok _ => isFalse (fun hh => by cases hh)

/-- The `Recipient` contract type: `{ address: Address, amount: i128 }`. -/
structure Recipient where
  address : Address
  amount : Int
deriving DecidableEq, Repr

/-- Lower bound of `i128`. -/
def I128_MIN : Int := -(2 ^ 127)

/-- Upper bound of `i128`. -/
def I128_MAX : Int := 2 ^ 127 - 1

/-- Whether an integer is representable as an `i128`. -/
def inI128 (x : Int) : Bool := decide (I128_MIN ≤ x) && decide (x ≤ I128_MAX)

/-- `i128::checked_add`: the exact sum when representable, `none` on overflow. -/
def checkedAdd (a b : Int) : Option Int :=
  if inI128 (a + b) then some (a + b) else none

/-- `i128::checked_sub`: the exact difference when representable, `none` on
overflow of the 128-bit signed range. -/
def checkedSub (a b : Int) : Option Int :=
  if inI128 (a - b) then some (a - b) else none

/-- The distinct panics of `distribute` (every Soroban panic aborts and
reverts the whole invocation). -/
inductive Err where
  | emptyRecipients
  | tooManyRecipients
  | nonPositiveAmount
  | vaultRecipient
  | duplicateRecipient
  | totalOverflow
  | authFailed
  | depositFailed
  | transferFailed
  | valuationMissing
  | divisionByZero
  | divisionOverflow
  | underflowLast
  | distributedOverflow
deriving DecidableEq, Repr

/-- `soroban_fixed_point_math::SorobanFixedPoint::fixed_div_floor` for `i128`:
`x.fixed_div_floor(e, y, denom) = floor(x * denom / y)`, computed in 256-bit
intermediate precision; panics on division by zero and when the result does
not fit an `i128`. -/
def fixedDivFloor (x y denom : Int) : Except Err Int :=
  if y = 0 then .error .divisionByZero
  else
    if inI128 (Int.fdiv (x * denom) y) then .ok (Int.fdiv (x * denom) y)
    else .error .divisionOverflow

/-- The validation loop of `distribute` (lib.rs lines 74–91): per recipient,
in source order, check amount positivity, the recipient-is-vault case, and
duplicates (the `seen` map), then extend the running total with
`checked_add`. -/
def validateLoop (vault : Address) :
    List Recipient → List Address → Int → Except Err Int
  | [], _, total => .ok total
  | r :: rest, seen, total =>
    if r.amount ≤ 0 then .error .nonPositiveAmount
    else if r.address = vault then .error .vaultRecipient
    else if r.address ∈ seen then .error .duplicateRecipient
    else
      match checkedAdd total r.amount with
      | some t => validateLoop vault rest (r.address :: seen) t
      | none => .error .totalOverflow

/-- Stage 1 of `distribute` (lib.rs lines 64–91): the emptiness and length
checks followed by the per-recipient validation loop. -/
def validate (vault : Address) (rs : List Recipient) : Except Err Int :=
  if rs.length = 0 then .error .emptyRecipients
  else if 100 < rs.length then .error .tooManyRecipients
  else validateLoop vault rs [] 0

/-- Sum of the input `amount` fields of a recipient list. -/
def totalAmount (rs : List Recipient) : Int := (rs.map (fun r => r.amount)).sum

/-- One external invocation performed by the contract, as recorded in the
call trace of the embedding:
* `depositCall`: `vault_client.deposit(amounts_desired, amounts_min, from, invest)`;
* `valuationCall`: `vault_client.get_asset_amounts_per_shares(shares)`;
* `transferCall`: `TokenClient::transfer(from, to, amount)` on `token`;
* `authCall`: one `authorize_as_current_contract` entry for
  `token.transfer(from, to, amount)`;
* `eventRecord`: publication of a `Distributed` record (`events.rs`). -/
inductive ExtCall where
  | depositCall (amountsDesired amountsMin : List Int) (fromAddr : Address) (invest : Bool)
  | valuationCall (shares : Int)
  | transferCall (token fromAddr toAddr : Address) (amount : Int)
  | authCall (token fromAddr toAddr : Address) (amount : Int)
  | eventRecord (asset vaultAddr user : Address) (underlyingAmount dfTokens : Int)
deriving DecidableEq, Repr

/-- The oracle environment for one `distribute` invocation: the fixed
addresses, whether `caller.require_auth()` succeeds, and the behaviour of the
external vault / token collaborators (`none` and `false` model a panic in the
collaborator, which aborts the whole invocation). -/
structure ExtEnv where
  caller : Address
  vault : Address
  contractAddr : Address
  callerAuthorized : Bool
  depositRes : Int → Option Int
  valuationRes : Int → Option Int
  transferRes : Address → Address → Int → Bool

/-- The trace entries generated by the distribution loop for a list of
(recipient, claim-unit share) pairs: one delegated-authorization entry
followed by one df-token transfer per pair, in order. -/
def recipientCalls (env : ExtEnv) : List (Address × Int) → List ExtCall
  | [] => []
  | p :: ps =>
    ExtCall.authCall env.vault env.contractAddr p.1 p.2 ::
    ExtCall.transferCall env.vault env.contractAddr p.1 p.2 ::
    recipientCalls env ps

/-- Stage 4 of `distribute` (lib.rs lines 124–187): walk the recipients with
index `i`, detect the last recipient by `i + 1 == n`, give it the remainder
via `checked_sub`, give every other recipient
`amount.fixed_div_floor(underlying, minted)`, authorize and perform the
df-token transfer, accumulate `distributed` with `checked_add`, and push the
result pair. -/
def distLoop (env : ExtEnv) (minted underlying : Int) (n : Nat) :
    List Recipient → Nat → Int → List (Address × Int) → List ExtCall →
    List ExtCall × Except Err (List (Address × Int))
  | [], _, _, acc, tr => (tr, .ok acc)
  | r :: rest, i, distributed, acc, tr =>
    let share : Except Err Int :=
      if i + 1 = n then
        match checkedSub minted distributed with
        | some v => .ok v
        | none => .error .underflowLast
      else fixedDivFloor r.amount underlying minted
    match share with
    | .error e => (tr, .error e)
    | .ok s =>
      let tr' := tr ++ [ExtCall.authCall env.vault env.contractAddr r.address s,
                        ExtCall.transferCall env.vault env.contractAddr r.address s]
      if env.transferRes env.contractAddr r.address s then
        match checkedAdd distributed s with
        | some d => distLoop env minted underlying n rest (i + 1) d (acc ++ [(r.address, s)]) tr'
        | none => (tr', .error .distributedOverflow)
      else (tr', .error .transferFailed)

/-- The `distribute` entry point (lib.rs lines 55–190): `require_auth`,
validation, the vault deposit with `amounts_desired = amounts_min = [total]`
and `invest = true`, the df-token transfer from the caller into the
contract's own custody, the authoritative valuation query, and the
distribution loop.  Returns the trace of external invocations together with
either the result vector or the panic that aborted the invocation. -/
def distribute (env : ExtEnv) (recipients : List Recipient) :
    List ExtCall × Except Err (List (Address × Int)) :=
  if env.callerAuthorized then
    match validate env.vault recipients with
    | .error e => ([], .error e)
    | .ok total =>
      match env.depositRes total with
      | none => ([ExtCall.depositCall [total] [total] env.caller true], .error .depositFailed)
      | some minted =>
        if env.transferRes env.caller env.contractAddr minted then
          match env.valuationRes minted with
          | none =>
            ([ExtCall.depositCall [total] [total] env.caller true,
              ExtCall.transferCall env.vault env.caller env.contractAddr minted,
              ExtCall.valuationCall minted], .error .valuationMissing)
          | some underlying =>
            distLoop env minted underlying recipients.length recipients 0 0 []
              [ExtCall.depositCall [total] [total] env.caller true,
               ExtCall.transferCall env.vault env.caller env.contractAddr minted,
               ExtCall.valuationCall minted]
        else
          ([ExtCall.depositCall [total] [total] env.caller true,
            ExtCall.transferCall env.vault env.caller env.contractAddr minted],
           .error .transferFailed)
  else ([], .error .authFailed)

/-- The effect of one trace entry on `contract`'s token balance: a transfer
credits the destination and debits the source; every other call moves no
tokens. -/
def custodyDelta (contract : Address) : ExtCall → Int
  | ExtCall.transferCall _ f t a =>
    (if t = contract then a else 0) - (if f = contract then a else 0)
  | _ => 0

/-- The net change a trace causes to `contract`'s token balances: amounts
transferred in minus amounts transferred out (a transfer to self nets zero). -/
def netCustody (contract : Address) (tr : List ExtCall) : Int :=
  (tr.map (custodyDelta contract)).sum

/-- Whether a trace entry is the publication of a `Distributed` record. -/
def isEventRecord : ExtCall → Bool
  | ExtCall.eventRecord _ _ _ _ _ => true
  | _ => false

/-- The floor shares `floor(amount * minted / basis)` of a recipient list. -/
def floorShares (minted basis : Int) (rs : List Recipient) : List Int :=
  rs.map (fun r => Int.fdiv (r.amount * minted) basis)

/-- Modelled from the spec: the InputValidator check order as listed in §4.1
(amount positivity, then duplicate detection via the uniqueness set, then the
pool-account check), applied in one pass with a checked running sum.  Used
only to compare the spec's stated check order against the source order. -/
def specOrderValidateLoop (vault : Address) :
    List Recipient → List Address → Int → Except Err Int
  | [], _, total => .ok total
  | r :: rest, seen, total =>
    if r.amount ≤ 0 then .error .nonPositiveAmount
    else if r.address ∈ seen then .error .duplicateRecipient
    else if r.address = vault then .error .vaultRecipient
    else
      match checkedAdd total r.amount with
      | some t => specOrderValidateLoop vault rest (r.address :: seen) t
      | none => .error .totalOverflow

/-- Modelled from the spec: full validation in the §4.1 order (non-empty,
length bound, then the per-element pass of `specOrderValidateLoop`). -/
def specOrderValidate (vault : Address) (rs : List Recipient) : Except Err Int :=
  if rs.length = 0 then .error .emptyRecipients
  else if 100 < rs.length then .error .tooManyRecipients
  else specOrderValidateLoop vault rs [] 0

lemma checkedAdd_some {a b v : Int} (h : checkedAdd a b = some v) :
    v = a + b ∧ inI128 (a + b) = true := by
  unfold checkedAdd at h
  split at h
  next hc => cases h; exact ⟨rfl, hc⟩
  next hc => cases h

lemma checkedSub_some {a b v : Int} (h : checkedSub a b = some v) :
    v = a - b ∧ inI128 (a - b) = true := by
  unfold checkedSub at h
  split at h
  next hc => cases h; exact ⟨rfl, hc⟩
  next hc => cases h

lemma checkedSub_none {a b : Int} (h : checkedSub a b = none) :
    inI128 (a - b) = false := by
  unfold checkedSub at h
  split at h
  next hc => cases h
  next hc => simpa using hc

lemma fixedDivFloor_ok_val {x y d s : Int} (h : fixedDivFloor x y d = .ok s) :
    s = Int.fdiv (x * d) y := by
  unfold fixedDivFloor at h
  split at h
  · cases h
  · split at h
    · cases h; rfl
    · cases h

lemma fixedDivFloor_error_cases {x y d : Int} {e : Err}
    (h : fixedDivFloor x y d = .error e) :
    e = .divisionByZero ∨ e = .divisionOverflow := by
  unfold fixedDivFloor at h
  split at h
  · cases h; exact Or.inl rfl
  · split at h
    · cases h
    · cases h; exact Or.inr rfl

lemma totalAmount_nil : totalAmount [] = 0 := rfl

lemma totalAmount_cons (r : Recipient) (rs : List Recipient) :
    totalAmount (r :: rs) = r.amount + totalAmount rs := by
  simp [totalAmount]

lemma totalAmount_nonneg {rs : List Recipient} (h : ∀ r ∈ rs, 0 < r.amount) :
    0 ≤ totalAmount rs := by
  unfold totalAmount
  apply List.sum_nonneg
  intro x hx
  rcases List.mem_map.mp hx with ⟨r, hr, rfl⟩
  exact le_of_lt (h r hr)

lemma validateLoop_ok_val {vault : Address} :
    ∀ (rs : List Recipient) (seen : List Address) (t v : Int),
      validateLoop vault rs seen t = .ok v →
      v = t + totalAmount rs ∧ (inI128 t = true → inI128 v = true) := by
  intro rs
  induction rs with
  | nil =>
    intro seen t v h
    unfold validateLoop at h
    cases h
    simp [totalAmount_nil]
  | cons r rs ih =>
    intro seen t v h
    unfold validateLoop at h
    split at h
    · cases h
    split at h
    · cases h
    split at h
    · cases h
    rcases hca : checkedAdd t r.amount with _ | t2 <;> rw [hca] at h
    · cases h
    · obtain ⟨hv, hrange⟩ := ih _ _ _ h
      obtain ⟨ht2, hr2⟩ := checkedAdd_some hca
      subst ht2
      constructor
      · rw [hv, totalAmount_cons]; ring
      · intro _
        exact hrange hr2

lemma validate_ok_val {vault : Address} {rs : List Recipient} {t : Int}
    (h : validate vault rs = .ok t) :
    t = totalAmount rs ∧ inI128 t = true ∧ rs ≠ [] ∧ rs.length ≤ 100 := by
  unfold validate at h
  split at h
  · cases h
  split at h
  · cases h
  next h1 h2 =>
    obtain ⟨hv, hr⟩ := validateLoop_ok_val rs [] 0 t h
    refine ⟨by simpa using hv, hr (by decide), ?_, by omega⟩
    intro hnil
    subst hnil
    simp at h1

lemma I128_MIN_lt_zero : I128_MIN < 0 := by norm_num [I128_MIN]

lemma I128_MAX_pos : 0 < I128_MAX := by norm_num [I128_MAX]

lemma inI128_of_bounds {x : Int} (h1 : I128_MIN ≤ x) (h2 : x ≤ I128_MAX) :
    inI128 x = true := by
  unfold inI128
  simp [h1, h2]

lemma inI128_false_of_gt {x : Int} (h : I128_MAX < x) : inI128 x = false := by
  unfold inI128
  simp [not_le.mpr h]

lemma validateLoop_good {vault : Address} :
    ∀ (rs : List Recipient) (seen : List Address) (t : Int),
      0 ≤ t → t ≤ I128_MAX →
      (∀ r ∈ rs, 0 < r.amount) →
      (∀ r ∈ rs, r.address ≠ vault) →
      (∀ r ∈ rs, r.address ∉ seen) →
      List.Pairwise (fun a b => a.address ≠ b.address) rs →
      validateLoop vault rs seen t =
        if t + totalAmount rs ≤ I128_MAX then .ok (t + totalAmount rs)
        else .error .totalOverflow := by
  intro rs
  induction rs with
  | nil =>
    intro seen t ht0 htM _ _ _ _
    rw [totalAmount_nil, if_pos (by omega)]
    simp [validateLoop]
  | cons r rs ih =>
    intro seen t ht0 htM hpos hvault hseen hpw
    have hmem : r ∈ r :: rs := List.mem_cons_self r rs
    have h1 : ¬r.amount ≤ 0 := not_le.mpr (hpos r hmem)
    have h2 : ¬r.address = vault := hvault r hmem
    have h3 : r.address ∉ seen := hseen r hmem
    have hnn : 0 ≤ totalAmount rs :=
      totalAmount_nonneg (fun r2 hr2 => hpos r2 (List.mem_cons_of_mem r hr2))
    unfold validateLoop
    rw [if_neg h1, if_neg h2, if_neg h3]
    by_cases hle : t + r.amount ≤ I128_MAX
    · have hca : checkedAdd t r.amount = some (t + r.amount) := by
        unfold checkedAdd
        rw [if_pos]
        exact inI128_of_bounds (by have := I128_MIN_lt_zero; omega) hle
      rw [hca]
      have hreq :
          validateLoop vault rs (r.address :: seen) (t + r.amount) =
            if (t + r.amount) + totalAmount rs ≤ I128_MAX
            then .ok ((t + r.amount) + totalAmount rs)
            else .error .totalOverflow := by
        apply ih (r.address :: seen) (t + r.amount) (by have := hpos r hmem; omega) hle
        · intro r2 hr2; exact hpos r2 (List.mem_cons_of_mem r hr2)
        · intro r2 hr2; exact hvault r2 (List.mem_cons_of_mem r hr2)
        · intro r2 hr2 hcmem
          rcases List.mem_cons.mp hcmem with heq | hin
          · exact (List.pairwise_cons.mp hpw).1 r2 hr2 heq.symm
          · exact hseen r2 (List.mem_cons_of_mem r hr2) hin
        · exact (List.pairwise_cons.mp hpw).2
      show validateLoop vault rs (r.address :: seen) (t + r.amount) = _
      rw [hreq, totalAmount_cons]
      have harith : t + r.amount + totalAmount rs = t + (r.amount + totalAmount rs) := by ring
      rw [harith]
    · have hca : checkedAdd t r.amount = none := by
        unfold checkedAdd
        rw [if_neg]
        simp [inI128_false_of_gt (not_le.mp hle)]
      rw [hca, totalAmount_cons, if_neg (by omega)]

lemma validate_overflow {vault : Address} {rs : List Recipient}
    (hne : rs ≠ []) (hlen : rs.length ≤ 100)
    (hpos : ∀ r ∈ rs, 0 < r.amount)
    (hvault : ∀ r ∈ rs, r.address ≠ vault)
    (hpw : List.Pairwise (fun a b => a.address ≠ b.address) rs)
    (hover : I128_MAX < totalAmount rs) :
    validate vault rs = .error .totalOverflow := by
  unfold validate
  rw [if_neg (by simpa using hne), if_neg (by omega)]
  rw [validateLoop_good rs [] 0 le_rfl (le_of_lt I128_MAX_pos) hpos hvault
    (by intro r _ hmem; simp at hmem) hpw]
  rw [if_neg (by omega)]

lemma validateLoop_eq_specOrder {vault : Address} :
    ∀ (rs : List Recipient) (seen : List Address) (total : Int), vault ∉ seen →
      validateLoop vault rs seen total = specOrderValidateLoop vault rs seen total := by
  intro rs
  induction rs with
  | nil => intro seen total _; rfl
  | cons r rs ih =>
    intro seen total hv
    unfold validateLoop specOrderValidateLoop
    by_cases h1 : r.amount ≤ 0
    · rw [if_pos h1, if_pos h1]
    rw [if_neg h1, if_neg h1]
    by_cases h2 : r.address = vault
    · have hns : r.address ∉ seen := by rw [h2]; exact hv
      rw [if_pos h2, if_neg hns, if_pos h2]
    rw [if_neg h2]
    by_cases h3 : r.address ∈ seen
    · rw [if_pos h3, if_pos h3]
    rw [if_neg h3, if_neg h3, if_neg h2]
    cases hca : checkedAdd total r.amount with
    | some t =>
      apply ih (r.address :: seen) t
      intro hmem
      rcases List.mem_cons.mp hmem with heq | hin
      · exact h2 heq.symm
      · exact hv hin
    | none => rfl

lemma validate_eq_specOrder (vault : Address) (rs : List Recipient) :
    validate vault rs = specOrderValidate vault rs := by
  unfold validate specOrderValidate
  by_cases h1 : rs.length = 0
  · rw [if_pos h1, if_pos h1]
  rw [if_neg h1, if_neg h1]
  by_cases h2 : 100 < rs.length
  · rw [if_pos h2, if_pos h2]
  rw [if_neg h2, if_neg h2]
  exact validateLoop_eq_specOrder rs [] 0 (by intro hmem; simp at hmem)

lemma recipientCalls_append (env : ExtEnv) (ps qs : List (Address × Int)) :
    recipientCalls env (ps ++ qs) = recipientCalls env ps ++ recipientCalls env qs := by
  induction ps with
  | nil => rfl
  | cons p ps ih => simp [recipientCalls, ih]

lemma distLoop_ok_char (env : ExtEnv) (minted underlying : Int) (n : Nat) :
    ∀ (rest : List Recipient) (i : Nat) (dist : Int) (acc : List (Address × Int))
      (tr tr' : List ExtCall) (res : List (Address × Int)),
      i + rest.length = n → rest ≠ [] →
      distLoop env minted underlying n rest i dist acc tr = (tr', .ok res) →
      ∃ pairs : List (Address × Int),
        res = acc ++ pairs ∧
        pairs.map Prod.fst = rest.map Recipient.address ∧
        pairs.map Prod.snd =
          floorShares minted underlying rest.dropLast ++
            [minted - (dist + (floorShares minted underlying rest.dropLast).sum)] ∧
        tr' = tr ++ recipientCalls env pairs ∧
        (∀ p ∈ pairs, env.transferRes env.contractAddr p.1 p.2 = true) ∧
        inI128 (minted - (dist + (floorShares minted underlying rest.dropLast).sum)) = true := by
  intro rest
  induction rest with
  | nil => intro i dist acc tr tr' res hn hne; exact absurd rfl hne
  | cons r rest ih =>
    intro i dist acc tr tr' res hn _ hrun
    cases rest with
    | nil =>
      have hlast : i + 1 = n := by simpa using hn
      unfold distLoop at hrun
      rw [if_pos hlast] at hrun
      rcases hcs : checkedSub minted dist with _ | v <;> simp only [hcs] at hrun
      · cases hrun
      obtain ⟨hval, hrange⟩ := checkedSub_some hcs
      subst hval
      by_cases htf : env.transferRes env.contractAddr r.address (minted - dist) = true
      · rw [if_pos htf] at hrun
        rcases hcd : checkedAdd dist (minted - dist) with _ | d <;> simp only [hcd] at hrun
        · cases hrun
        unfold distLoop at hrun
        obtain ⟨htr, hres⟩ := Prod.ext_iff.mp hrun
        simp only [] at htr hres
        cases hres
        refine ⟨[(r.address, minted - dist)], rfl, by simp, ?_, ?_, ?_, ?_⟩
        · simp [floorShares]
        · rw [← htr]
          simp [recipientCalls]
        · intro p hp
          rcases List.mem_cons.mp hp with rfl | hp2
          · exact htf
          · simp at hp2
        · simpa [floorShares] using hrange
      · rw [if_neg htf] at hrun
        cases hrun
    | cons r2 rest2 =>
      have hnotlast : ¬(i + 1 = n) := by
        simp only [List.length_cons] at hn
        omega
      unfold distLoop at hrun
      rw [if_neg hnotlast] at hrun
      rcases hfd : fixedDivFloor r.amount underlying minted with e | s <;> simp only [hfd] at hrun
      · cases hrun
      have hs := fixedDivFloor_ok_val hfd
      by_cases htf : env.transferRes env.contractAddr r.address s = true
      · rw [if_pos htf] at hrun
        rcases hcd : checkedAdd dist s with _ | d <;> simp only [hcd] at hrun
        · cases hrun
        obtain ⟨hd, _⟩ := checkedAdd_some hcd
        subst hd
        have hn' : (i + 1) + (r2 :: rest2).length = n := by
          simp only [List.length_cons] at hn ⊢
          omega
        obtain ⟨pairs, hres, hfst, hsnd, htr, htrok, hrng⟩ :=
          ih (i + 1) (dist + s) (acc ++ [(r.address, s)]) _ tr' res hn' (by simp) hrun
        have hdl : floorShares minted underlying ((r :: r2 :: rest2).dropLast) =
            Int.fdiv (r.amount * minted) underlying ::
              floorShares minted underlying ((r2 :: rest2).dropLast) := by
          simp [floorShares]
        have hregroup : ∀ z : Int, minted - (dist + s + z) =
            minted - (dist + (Int.fdiv (r.amount * minted) underlying + z)) := by
          intro z
          rw [hs]
          ring
        refine ⟨(r.address, s) :: pairs, ?_, ?_, ?_, ?_, ?_, ?_⟩
        · rw [hres, List.append_assoc]
          simp
        · simp [hfst]
        · rw [List.map_cons, hsnd, hdl, List.sum_cons, List.cons_append, ← hregroup, hs]
        · rw [htr, List.append_assoc]
          simp [recipientCalls]
        · intro p hp
          rcases List.mem_cons.mp hp with rfl | hp2
          · exact htf
          · exact htrok p hp2
        · rw [hdl, List.sum_cons, ← hregroup]
          exact hrng
      · rw [if_neg htf] at hrun
        cases hrun

lemma distribute_ok_char {env : ExtEnv} {rs : List Recipient}
    {tr : List ExtCall} {res : List (Address × Int)}
    (h : distribute env rs = (tr, .ok res)) :
    ∃ total minted underlying,
      env.callerAuthorized = true ∧
      validate env.vault rs = .ok total ∧
      env.depositRes total = some minted ∧
      env.transferRes env.caller env.contractAddr minted = true ∧
      env.valuationRes minted = some underlying ∧
      res.map Prod.fst = rs.map Recipient.address ∧
      res.map Prod.snd =
        floorShares minted underlying rs.dropLast ++
          [minted - (floorShares minted underlying rs.dropLast).sum] ∧
      tr = ExtCall.depositCall [total] [total] env.caller true ::
           ExtCall.transferCall env.vault env.caller env.contractAddr minted ::
           ExtCall.valuationCall minted :: recipientCalls env res ∧
      (∀ p ∈ res, env.transferRes env.contractAddr p.1 p.2 = true) ∧
      inI128 (minted - (floorShares minted underlying rs.dropLast).sum) = true := by
  unfold distribute at h
  by_cases ha : env.callerAuthorized = true
  case neg =>
    rw [if_neg ha] at h
    cases (Prod.ext_iff.mp h).2
  rw [if_pos ha] at h
  rcases hv : validate env.vault rs with e | total <;> simp only [hv] at h
  · cases (Prod.ext_iff.mp h).2
  rcases hd : env.depositRes total with _ | minted <;> simp only [hd] at h
  · cases (Prod.ext_iff.mp h).2
  by_cases ht : env.transferRes env.caller env.contractAddr minted = true
  case neg =>
    rw [if_neg ht] at h
    cases (Prod.ext_iff.mp h).2
  rw [if_pos ht] at h
  rcases hval : env.valuationRes minted with _ | underlying <;> simp only [hval] at h
  · cases (Prod.ext_iff.mp h).2
  have hne : rs ≠ [] := (validate_ok_val hv).2.2.1
  obtain ⟨pairs, hres, hfst, hsnd, htr, htrok, hrng⟩ :=
    distLoop_ok_char env minted underlying rs.length rs 0 0 [] _ tr res (by simp) hne h
  rw [List.nil_append] at hres
  subst hres
  refine ⟨total, minted, underlying, ha, rfl, hd, ht, hval, hfst, ?_, ?_, htrok, ?_⟩
  · simpa using hsnd
  · rw [htr]
    rfl
  · simpa using hrng

lemma distLoop_underflow_char (env : ExtEnv) (minted underlying : Int) (n : Nat) :
    ∀ (rest : List Recipient) (i : Nat) (dist : Int) (acc : List (Address × Int))
      (tr : List ExtCall),
      i + rest.length = n → rest ≠ [] →
      (distLoop env minted underlying n rest i dist acc tr).2 = .error .underflowLast →
      inI128 (minted - (dist + (floorShares minted underlying rest.dropLast).sum)) = false := by
  intro rest
  induction rest with
  | nil => intro i dist acc tr hn hne; exact absurd rfl hne
  | cons r rest ih =>
    intro i dist acc tr hn _ hrun
    cases rest with
    | nil =>
      have hlast : i + 1 = n := by simpa using hn
      unfold distLoop at hrun
      rw [if_pos hlast] at hrun
      rcases hcs : checkedSub minted dist with _ | v <;> simp only [hcs] at hrun
      · simpa [floorShares] using checkedSub_none hcs
      obtain ⟨hval, _⟩ := checkedSub_some hcs
      subst hval
      by_cases htf : env.transferRes env.contractAddr r.address (minted - dist) = true
      · rw [if_pos htf] at hrun
        rcases hcd : checkedAdd dist (minted - dist) with _ | d <;> simp only [hcd] at hrun
        · simp at hrun
        · unfold distLoop at hrun
          simp at hrun
      · rw [if_neg htf] at hrun
        simp at hrun
    | cons r2 rest2 =>
      have hnotlast : ¬(i + 1 = n) := by
        simp only [List.length_cons] at hn
        omega
      unfold distLoop at hrun
      rw [if_neg hnotlast] at hrun
      rcases hfd : fixedDivFloor r.amount underlying minted with e | s <;> simp only [hfd] at hrun
      · rcases fixedDivFloor_error_cases hfd with rfl | rfl <;> simp at hrun
      have hs := fixedDivFloor_ok_val hfd
      by_cases htf : env.transferRes env.contractAddr r.address s = true
      · rw [if_pos htf] at hrun
        rcases hcd : checkedAdd dist s with _ | d <;> simp only [hcd] at hrun
        · simp at hrun
        obtain ⟨hd, _⟩ := checkedAdd_some hcd
        subst hd
        have hn' : (i + 1) + (r2 :: rest2).length = n := by
          simp only [List.length_cons] at hn ⊢
          omega
        have hres := ih (i + 1) (dist + s) (acc ++ [(r.address, s)]) _ hn' (by simp) hrun
        have hdl : floorShares minted underlying ((r :: r2 :: rest2).dropLast) =
            Int.fdiv (r.amount * minted) underlying ::
              floorShares minted underlying ((r2 :: rest2).dropLast) := by
          simp [floorShares]
        rw [hdl, List.sum_cons]
        have harr : minted -
            (dist + (Int.fdiv (r.amount * minted) underlying +
              (floorShares minted underlying ((r2 :: rest2).dropLast)).sum)) =
            minted - (dist + s + (floorShares minted underlying ((r2 :: rest2).dropLast)).sum) := by
          rw [hs]
          ring
        rw [harr]
        exact hres
      · rw [if_neg htf] at hrun
        simp at hrun

lemma distLoop_trace_no_events (env : ExtEnv) (minted underlying : Int) (n : Nat) :
    ∀ (rest : List Recipient) (i : Nat) (dist : Int) (acc : List (Address × Int))
      (tr : List ExtCall),
      tr.countP isEventRecord = 0 →
      ((distLoop env minted underlying n rest i dist acc tr).1).countP isEventRecord = 0 := by
  intro rest
  induction rest with
  | nil =>
    intro i dist acc tr h
    simpa [distLoop] using h
  | cons r rest ih =>
    intro i dist acc tr h
    unfold distLoop
    rcases hsh : (if i + 1 = n then
        match checkedSub minted dist with
        | some v => (Except.ok v : Except Err Int)
        | none => .error .underflowLast
      else fixedDivFloor r.amount underlying minted) with e | s <;> simp only [hsh]
    · simpa using h
    by_cases htf : env.transferRes env.contractAddr r.address s = true
    · rw [if_pos htf]
      rcases hcd : checkedAdd dist s with _ | d <;> simp only [hcd]
      · simp [List.countP_append, h, isEventRecord, List.countP_cons]
      · exact ih _ _ _ _ (by simp [List.countP_append, h, isEventRecord, List.countP_cons])
    · rw [if_neg htf]
      simp [List.countP_append, h, isEventRecord, List.countP_cons]

lemma distribute_trace_no_events (env : ExtEnv) (rs : List Recipient) :
    ((distribute env rs).1).countP isEventRecord = 0 := by
  unfold distribute
  by_cases ha : env.callerAuthorized = true
  case neg =>
    rw [if_neg ha]
    rfl
  rw [if_pos ha]
  rcases hv : validate env.vault rs with e | total <;> simp only [hv]
  · rfl
  rcases hd : env.depositRes total with _ | minted <;> simp only [hd]
  · rfl
  by_cases ht : env.transferRes env.caller env.contractAddr minted = true
  case neg =>
    rw [if_neg ht]
    rfl
  rw [if_pos ht]
  rcases hval : env.valuationRes minted with _ | underlying <;> simp only [hval]
  · rfl
  exact distLoop_trace_no_events env minted underlying rs.length rs 0 0 [] _ (by rfl)

lemma netCustody_recipientCalls (env : ExtEnv) :
    ∀ pairs : List (Address × Int), (∀ p ∈ pairs, p.1 ≠ env.contractAddr) →
      netCustody env.contractAddr (recipientCalls env pairs) = -(pairs.map Prod.snd).sum := by
  intro pairs
  induction pairs with
  | nil => intro _; simp [recipientCalls, netCustody]
  | cons p ps ih =>
    intro hne
    have h1 : p.1 ≠ env.contractAddr := hne p (List.mem_cons_self p ps)
    have h2 := ih (fun q hq => hne q (List.mem_cons_of_mem p hq))
    simp only [recipientCalls, netCustody, List.map_cons, List.sum_cons] at h2 ⊢
    rw [h2]
    simp [custodyDelta, if_neg h1]
    ring

lemma validateLoop_error_cases {vault : Address} :
    ∀ (rs : List Recipient) (seen : List Address) (t : Int) (e : Err),
      validateLoop vault rs seen t = .error e →
      e = .nonPositiveAmount ∨ e = .vaultRecipient ∨ e = .duplicateRecipient ∨
        e = .totalOverflow := by
  intro rs
  induction rs with
  | nil => intro seen t e h; cases h
  | cons r rs ih =>
    intro seen t e h
    unfold validateLoop at h
    split at h
    · cases h; exact Or.inl rfl
    split at h
    · cases h; exact Or.inr (Or.inl rfl)
    split at h
    · cases h; exact Or.inr (Or.inr (Or.inl rfl))
    rcases hca : checkedAdd t r.amount with _ | t2 <;> rw [hca] at h
    · cases h; exact Or.inr (Or.inr (Or.inr rfl))
    · exact ih _ _ _ h

lemma validate_error_cases {vault : Address} {rs : List Recipient} {e : Err}
    (h : validate vault rs = .error e) :
    e = .emptyRecipients ∨ e = .tooManyRecipients ∨ e = .nonPositiveAmount ∨
      e = .vaultRecipient ∨ e = .duplicateRecipient ∨ e = .totalOverflow := by
  unfold validate at h
  split at h
  · cases h; exact Or.inl rfl
  split at h
  · cases h; exact Or.inr (Or.inl rfl)
  rcases validateLoop_error_cases rs [] 0 e h with h1 | h1 | h1 | h1 <;> subst h1 <;> simp

lemma distribute_underflow_char {env : ExtEnv} {rs : List Recipient} {tr : List ExtCall}
    (h : distribute env rs = (tr, .error .underflowLast)) :
    ∃ total minted underlying,
      validate env.vault rs = .ok total ∧
      env.depositRes total = some minted ∧
      env.valuationRes minted = some underlying ∧
      inI128 (minted - (floorShares minted underlying rs.dropLast).sum) = false := by
  unfold distribute at h
  by_cases ha : env.callerAuthorized = true
  case neg =>
    rw [if_neg ha] at h
    have := (Prod.ext_iff.mp h).2
    simp at this
  rw [if_pos ha] at h
  rcases hv : validate env.vault rs with e | total <;> simp only [hv] at h
  · have heq := (Prod.ext_iff.mp h).2
    have : e = Err.underflowLast := by
      cases heq
      rfl
    subst this
    rcases validate_error_cases hv with h1 | h1 | h1 | h1 | h1 | h1 <;> cases h1
  rcases hd : env.depositRes total with _ | minted <;> simp only [hd] at h
  · have := (Prod.ext_iff.mp h).2
    simp at this
  by_cases ht : env.transferRes env.caller env.contractAddr minted = true
  case neg =>
    rw [if_neg ht] at h
    have := (Prod.ext_iff.mp h).2
    simp at this
  rw [if_pos ht] at h
  rcases hval : env.valuationRes minted with _ | underlying <;> simp only [hval] at h
  · have := (Prod.ext_iff.mp h).2
    simp at this
  have hne : rs ≠ [] := (validate_ok_val hv).2.2.1
  have hloop : (distLoop env minted underlying rs.length rs 0 0 []
      [ExtCall.depositCall [total] [total] env.caller true,
       ExtCall.transferCall env.vault env.caller env.contractAddr minted,
       ExtCall.valuationCall minted]).2 = .error .underflowLast := by
    rw [h]
  have := distLoop_underflow_char env minted underlying rs.length rs 0 0 [] _
    (by simp) hne hloop
  exact ⟨total, minted, underlying, rfl, hd, hval, by simpa using this⟩

/-- A concrete environment whose vault always reports `minted` minted claim
units and `underlying` as the valuation of the minted units, with all
transfers accepted: caller 100, vault 0, distributor contract 99. -/
def cexEnv (minted underlying : Int) : ExtEnv :=
  { caller := 100, vault := 0, contractAddr := 99, callerAuthorized := true,
    depositRes := fun _ => some minted, valuationRes := fun _ => some underlying,
    transferRes := fun _ _ _ => true }

/-- A concrete environment whose vault mints 1:1 and values shares 1:1, with
all transfers accepted: caller 100, vault 0, distributor contract 99. -/
def idEnv : ExtEnv :=
  { caller := 100, vault := 0, contractAddr := 99, callerAuthorized := true,
    depositRes := fun t => some t, valuationRes := fun m => some m,
    transferRes := fun _ _ _ => true }

/-- Claim C1: for every recipient list accepted by validation and minted
claim-unit total returned by the vault deposit, the claim units in the
returned sequence sum to exactly the minted total, and (when neither the
caller nor any recipient is the distributing contract itself) the
contract's transient claim-unit custody nets to zero over the recorded
transfers: it transfers out exactly the minted units it received. -/
theorem distribute_conservation (env : ExtEnv) (rs : List Recipient)
    (tr : List ExtCall) (res : List (Address × Int))
    (h : distribute env rs = (tr, .ok res))
    (hc : env.caller ≠ env.contractAddr)
    (hr : ∀ r ∈ rs, r.address ≠ env.contractAddr) :
    ∃ total minted,
      validate env.vault rs = .ok total ∧
      env.depositRes total = some minted ∧
      (res.map Prod.snd).sum = minted ∧
      netCustody env.contractAddr tr = 0 := by
  obtain ⟨total, minted, underlying, _, hv, hd, _, _, hfst, hsnd, htr, _, _⟩ :=
    distribute_ok_char h
  have hsum : (res.map Prod.snd).sum = minted := by
    rw [hsnd, List.sum_append, List.sum_cons, List.sum_nil]
    ring
  refine ⟨total, minted, hv, hd, hsum, ?_⟩
  have hresne : ∀ p ∈ res, p.1 ≠ env.contractAddr := by
    intro p hp
    have hmem : p.1 ∈ res.map Prod.fst := List.mem_map_of_mem Prod.fst hp
    rw [hfst] at hmem
    rcases List.mem_map.mp hmem with ⟨r, hrmem, hra⟩
    rw [← hra]
    exact hr r hrmem
  rw [htr]
  simp only [netCustody, List.map_cons, List.sum_cons]
  have hrc := netCustody_recipientCalls env res hresne
  simp only [netCustody] at hrc
  rw [hrc, hsum]
  simp [custodyDelta, if_neg hc]

/-- Claim C2: for every valid recipient list, every recipient except the
positionally last one is assigned `floor(amount * minted / basis)` where the
basis is the vault's valuation of the minted units, the last recipient is
assigned the minted total minus the sum of all previously assigned shares,
and a single-recipient request assigns that recipient the entire minted
total. -/
theorem distribute_floor_rounding (env : ExtEnv) (rs : List Recipient)
    (tr : List ExtCall) (res : List (Address × Int))
    (h : distribute env rs = (tr, .ok res)) :
    ∃ total minted underlying,
      validate env.vault rs = .ok total ∧
      env.depositRes total = some minted ∧
      env.valuationRes minted = some underlying ∧
      res.map Prod.snd =
        floorShares minted underlying rs.dropLast ++
          [minted - (floorShares minted underlying rs.dropLast).sum] ∧
      (rs.length = 1 → res.map Prod.snd = [minted]) := by
  obtain ⟨total, minted, underlying, _, hv, hd, _, hval, _, hsnd, _, _, _⟩ :=
    distribute_ok_char h
  refine ⟨total, minted, underlying, hv, hd, hval, hsnd, ?_⟩
  intro hlen
  rcases rs with _ | ⟨r, rs2⟩
  · simp at hlen
  rcases rs2 with _ | ⟨r2, rs3⟩
  · simpa [floorShares] using hsnd
  · simp at hlen

/-- Claim C9: for every successful call, the returned sequence has the same
length as the input recipient sequence and lists accounts in exactly the
input order. -/
theorem distribute_order_preservation (env : ExtEnv) (rs : List Recipient)
    (tr : List ExtCall) (res : List (Address × Int))
    (h : distribute env rs = (tr, .ok res)) :
    res.length = rs.length ∧ res.map Prod.fst = rs.map Recipient.address := by
  obtain ⟨_, _, _, _, _, _, _, _, hfst, _, _, _, _⟩ := distribute_ok_char h
  constructor
  · have := congrArg List.length hfst
    simpa using this
  · exact hfst

/-- Claim C3: validation checks the list in the stated order — non-empty,
length at most the maximum, and per element amount positivity, the
pool-account check and duplicate detection with a checked running sum
(`validate` is extensionally equal to `specOrderValidate`, the one-pass
validator written in the spec's listed order) — and any violation aborts
the invocation with that specific validation error before any external call
is made (the returned trace is empty). -/
theorem distribute_validation_order (env : ExtEnv) (rs : List Recipient) :
    (∀ e : Err, env.callerAuthorized = true → validate env.vault rs = .error e →
      distribute env rs = ([], .error e)) ∧
    validate env.vault rs = specOrderValidate env.vault rs := by
  constructor
  · intro e ha he
    unfold distribute
    rw [if_pos ha, he]
  · exact validate_eq_specOrder env.vault rs

/-- Claim C4 (code evaluation): `distribute` never publishes a distribution
record — the trace of every invocation, successful or not, contains zero
`Distributed` event records.  The `Distributed` event type exists in
`events.rs` and the repository's tests assert one record per recipient, but
`lib.rs` never emits it. -/
theorem distribute_no_event_records (env : ExtEnv) (rs : List Recipient) :
    ((distribute env rs).1).countP isEventRecord = 0 :=
  distribute_trace_no_events env rs

/-- Claim C6: a recipient list that passes all per-element checks but whose
amounts sum beyond the signed 128-bit range fails validation with the
overflow error rather than wrapping, and every successful call satisfies
that the validated total is the sum of the input amounts and fits the
signed 128-bit range. -/
theorem distribute_overflow_rejection (env : ExtEnv) (rs : List Recipient) :
    (∀ tr res, distribute env rs = (tr, .ok res) →
      validate env.vault rs = .ok (totalAmount rs) ∧ inI128 (totalAmount rs) = true) ∧
    (env.callerAuthorized = true → rs ≠ [] → rs.length ≤ 100 →
      (∀ r ∈ rs, 0 < r.amount) →
      (∀ r ∈ rs, r.address ≠ env.vault) →
      List.Pairwise (fun a b => a.address ≠ b.address) rs →
      I128_MAX < totalAmount rs →
      distribute env rs = ([], .error .totalOverflow)) := by
  constructor
  · intro tr res h
    obtain ⟨total, _, _, _, hv, _, _, _, _, _, _, _, _⟩ := distribute_ok_char h
    obtain ⟨ht, hin, _, _⟩ := validate_ok_val hv
    subst ht
    exact ⟨hv, hin⟩
  · intro ha hne hlen hpos hvault hpw hover
    have hverr := validate_overflow hne hlen hpos hvault hpw hover
    unfold distribute
    rw [if_pos ha, hverr]

/-- Claim C7: on every successful call the vault deposit is invoked with
`amounts_desired` and `amounts_min` both equal to the validated total and
the invest flag set, and the minted claim-unit count used afterwards
(transferred into the contract, valued, and distributed) is exactly the
value the pool returned, never the raw total. -/
theorem distribute_deposit_call (env : ExtEnv) (rs : List Recipient)
    (tr : List ExtCall) (res : List (Address × Int))
    (h : distribute env rs = (tr, .ok res)) :
    ∃ total minted underlying,
      validate env.vault rs = .ok total ∧
      env.depositRes total = some minted ∧
      env.valuationRes minted = some underlying ∧
      tr = ExtCall.depositCall [total] [total] env.caller true ::
           ExtCall.transferCall env.vault env.caller env.contractAddr minted ::
           ExtCall.valuationCall minted :: recipientCalls env res ∧
      (res.map Prod.snd).sum = minted := by
  obtain ⟨total, minted, underlying, _, hv, hd, _, hval, _, hsnd, htr, _, _⟩ :=
    distribute_ok_char h
  refine ⟨total, minted, underlying, hv, hd, hval, htr, ?_⟩
  rw [hsnd, List.sum_append, List.sum_cons, List.sum_nil]
  ring

/-- Claim C8: every error is fatal to the whole invocation — a missing
caller authorization or a failed deposit aborts with no recipient served,
and the only non-error outcome serves every recipient in the input (each
with an accepted transfer), so there is no partial-success outcome. -/
theorem distribute_all_or_nothing (env : ExtEnv) (rs : List Recipient) :
    (env.callerAuthorized = false → distribute env rs = ([], .error .authFailed)) ∧
    (∀ total : Int, env.callerAuthorized = true → validate env.vault rs = .ok total →
      env.depositRes total = none →
      distribute env rs =
        ([ExtCall.depositCall [total] [total] env.caller true], .error .depositFailed)) ∧
    (∀ tr res, distribute env rs = (tr, .ok res) →
      res.map Prod.fst = rs.map Recipient.address ∧
      ∀ p ∈ res, env.transferRes env.contractAddr p.1 p.2 = true) := by
  refine ⟨?_, ?_, ?_⟩
  · intro ha
    unfold distribute
    rw [if_neg (by rw [ha]; exact Bool.false_ne_true)]
  · intro total ha hv hd
    unfold distribute
    rw [if_pos ha]
    simp only [hv, hd]
  · intro tr res h
    obtain ⟨_, _, _, _, _, _, _, _, hfst, _, _, htrok, _⟩ := distribute_ok_char h
    exact ⟨hfst, htrok⟩

/-- Claim C5 (amended): on success the last recipient is assigned the
remainder `minted - sum(previous shares)` whether or not it is negative, and
that remainder lies in the signed 128-bit range; the defensive
`underflowLast` abort fires exactly when the remainder falls outside the
signed 128-bit range, not merely when the previously assigned shares exceed
the minted total. -/
theorem distribute_remainder_underflow (env : ExtEnv) (rs : List Recipient) :
    (∀ tr res, distribute env rs = (tr, .ok res) →
      ∃ total minted underlying,
        validate env.vault rs = .ok total ∧
        env.depositRes total = some minted ∧
        env.valuationRes minted = some underlying ∧
        inI128 (minted - (floorShares minted underlying rs.dropLast).sum) = true ∧
        res.map Prod.snd = floorShares minted underlying rs.dropLast ++
          [minted - (floorShares minted underlying rs.dropLast).sum]) ∧
    (∀ tr, distribute env rs = (tr, .error .underflowLast) →
      ∃ total minted underlying,
        validate env.vault rs = .ok total ∧
        env.depositRes total = some minted ∧
        env.valuationRes minted = some underlying ∧
        inI128 (minted - (floorShares minted underlying rs.dropLast).sum) = false) := by
  constructor
  · intro tr res h
    obtain ⟨total, minted, underlying, _, hv, hd, _, hval, _, hsnd, _, _, hrng⟩ :=
      distribute_ok_char h
    exact ⟨total, minted, underlying, hv, hd, hval, hrng, hsnd⟩
  · intro tr h
    exact distribute_underflow_char h

/-- Claim C5 counterexample: with recipients `[(1, 5), (2, 5)]` and a vault
reporting 10 minted units valued at 1 underlying unit, the non-last share is
50, which exceeds the minted total 10, yet `distribute` does not abort: it
succeeds and assigns the negative remainder `10 - 50 = -40` to the last
recipient. -/
theorem distribute_remainder_underflow_cex :
    (distribute (cexEnv 10 1) [⟨1, 5⟩, ⟨2, 5⟩]).2 = .ok [(1, 50), (2, -40)] ∧
    (10 : Int) < 50 := by
  constructor
  · decide
  · decide

/-- Claim C10 (amended): the valuation basis of the pro-rata floor division
is the vault's authoritative post-deposit valuation of the minted units (the
first entry of `get_asset_amounts_per_shares`), not the raw validated input
total; consequently there are inputs on which the valuation differs from the
raw total and the shares differ from `floor(amount * minted / raw_total)`
(though the two floors can also coincide on particular inputs). -/
theorem distribute_valuation_basis (env : ExtEnv) (rs : List Recipient) :
    (∀ tr res, distribute env rs = (tr, .ok res) →
      ∃ total minted underlying,
        validate env.vault rs = .ok total ∧
        env.depositRes total = some minted ∧
        env.valuationRes minted = some underlying ∧
        res.map Prod.snd = floorShares minted underlying rs.dropLast ++
          [minted - (floorShares minted underlying rs.dropLast).sum]) ∧
    (∃ (env2 : ExtEnv) (rs2 : List Recipient) (tr : List ExtCall)
        (res : List (Address × Int)) (total minted underlying : Int),
      distribute env2 rs2 = (tr, .ok res) ∧
      validate env2.vault rs2 = .ok total ∧
      env2.depositRes total = some minted ∧
      env2.valuationRes minted = some underlying ∧
      underlying ≠ total ∧
      res.map Prod.snd ≠ floorShares minted total rs2.dropLast ++
        [minted - (floorShares minted total rs2.dropLast).sum]) := by
  constructor
  · intro tr res h
    obtain ⟨total, minted, underlying, _, hv, hd, _, hval, _, hsnd, _, _, _⟩ :=
      distribute_ok_char h
    exact ⟨total, minted, underlying, hv, hd, hval, hsnd⟩
  · refine ⟨cexEnv 10 6, [⟨1, 3⟩, ⟨2, 7⟩],
      [.depositCall [10] [10] 100 true, .transferCall 0 100 99 10, .valuationCall 10,
       .authCall 0 99 1 5, .transferCall 0 99 1 5, .authCall 0 99 2 5,
       .transferCall 0 99 2 5],
      [(1, 5), (2, 5)], 10, 10, 6, ?_, ?_, ?_, ?_, ?_, ?_⟩
    · decide
    · decide
    · decide
    · decide
    · decide
    · decide

/-- Claim C10 counterexample: with recipients `[(1, 1), (2, 9)]` (raw total
10) and a vault reporting 10 minted units valued at 9, the valuation differs
from the raw total, yet the non-last recipient's share
`floor(1 * 10 / 9) = 1` coincides with `floor(1 * 10 / 10) = 1` — shares do
not differ on every input where the valuation differs from the total. -/
theorem distribute_valuation_basis_cex :
    (distribute (cexEnv 10 9) [⟨1, 1⟩, ⟨2, 9⟩]).2 = .ok [(1, 1), (2, 9)] ∧
    (9 : Int) ≠ 10 ∧
    Int.fdiv (1 * 10) 9 = Int.fdiv (1 * 10) 10 := by
  refine ⟨by decide, by decide, by decide⟩

/-- `idEnv` with the caller's authorization withheld. -/
def noAuthEnv : ExtEnv :=
  { idEnv with callerAuthorized := false }

/-- The trace of `distribute idEnv [(1, 300), (2, 700)]`. -/
def wTrId : List ExtCall :=
  [.depositCall [1000] [1000] 100 true, .transferCall 0 100 99 1000, .valuationCall 1000,
   .authCall 0 99 1 300, .transferCall 0 99 1 300,
   .authCall 0 99 2 700, .transferCall 0 99 2 700]

/-- The trace of `distribute (cexEnv 10 9) [(1, 3), (2, 3), (3, 3)]`. -/
def wTr334 : List ExtCall :=
  [.depositCall [9] [9] 100 true, .transferCall 0 100 99 10, .valuationCall 10,
   .authCall 0 99 1 3, .transferCall 0 99 1 3,
   .authCall 0 99 2 3, .transferCall 0 99 2 3,
   .authCall 0 99 3 4, .transferCall 0 99 3 4]

/-- The trace of `distribute (cexEnv 10 1) [(1, 5), (2, 5)]`. -/
def wTrNeg : List ExtCall :=
  [.depositCall [10] [10] 100 true, .transferCall 0 100 99 10, .valuationCall 10,
   .authCall 0 99 1 50, .transferCall 0 99 1 50,
   .authCall 0 99 2 (-40), .transferCall 0 99 2 (-40)]

/-- The trace of `distribute (cexEnv 1007 1007) [(1, 300), (2, 700)]`. -/
def wTr1007 : List ExtCall :=
  [.depositCall [1000] [1000] 100 true, .transferCall 0 100 99 1007, .valuationCall 1007,
   .authCall 0 99 1 300, .transferCall 0 99 1 300,
   .authCall 0 99 2 707, .transferCall 0 99 2 707]

/-- The trace of `distribute (cexEnv 10 6) [(1, 3), (2, 7)]`. -/
def wTrBasis : List ExtCall :=
  [.depositCall [10] [10] 100 true, .transferCall 0 100 99 10, .valuationCall 10,
   .authCall 0 99 1 5, .transferCall 0 99 1 5,
   .authCall 0 99 2 5, .transferCall 0 99 2 5]

/-- Witness for C1 at the 300/700 1:1 scenario. -/
theorem distribute_conservation_witness :
    ∃ total minted,
      validate idEnv.vault [⟨1, 300⟩, ⟨2, 700⟩] = .ok total ∧
      idEnv.depositRes total = some minted ∧
      (([(1, 300), (2, 700)] : List (Address × Int)).map Prod.snd).sum = minted ∧
      netCustody idEnv.contractAddr wTrId = 0 :=
  distribute_conservation idEnv [⟨1, 300⟩, ⟨2, 700⟩] wTrId [(1, 300), (2, 700)]
    (by decide) (by decide) (by decide)

/-- Witness for C2 at the 9-input/10-minted rounding scenario. -/
theorem distribute_floor_rounding_witness :
    ∃ total minted underlying,
      validate (cexEnv 10 9).vault [⟨1, 3⟩, ⟨2, 3⟩, ⟨3, 3⟩] = .ok total ∧
      (cexEnv 10 9).depositRes total = some minted ∧
      (cexEnv 10 9).valuationRes minted = some underlying ∧
      ([(1, 3), (2, 3), (3, 4)] : List (Address × Int)).map Prod.snd =
        floorShares minted underlying ([⟨1, 3⟩, ⟨2, 3⟩, ⟨3, 3⟩] : List Recipient).dropLast ++
          [minted -
            (floorShares minted underlying
              ([⟨1, 3⟩, ⟨2, 3⟩, ⟨3, 3⟩] : List Recipient).dropLast).sum] ∧
      (([⟨1, 3⟩, ⟨2, 3⟩, ⟨3, 3⟩] : List Recipient).length = 1 →
        ([(1, 3), (2, 3), (3, 4)] : List (Address × Int)).map Prod.snd = [minted]) :=
  distribute_floor_rounding (cexEnv 10 9) [⟨1, 3⟩, ⟨2, 3⟩, ⟨3, 3⟩] wTr334
    [(1, 3), (2, 3), (3, 4)] (by decide)

/-- Witness for C3 at a duplicate-recipient input. -/
theorem distribute_validation_order_witness :
    distribute idEnv [⟨1, 5⟩, ⟨1, 5⟩] = ([], .error .duplicateRecipient) :=
  (distribute_validation_order idEnv [⟨1, 5⟩, ⟨1, 5⟩]).1 .duplicateRecipient
    (by decide) (by decide)

/-- Witness for C5 at the negative-remainder input of the counterexample. -/
theorem distribute_remainder_underflow_witness :
    ∃ total minted underlying,
      validate (cexEnv 10 1).vault [⟨1, 5⟩, ⟨2, 5⟩] = .ok total ∧
      (cexEnv 10 1).depositRes total = some minted ∧
      (cexEnv 10 1).valuationRes minted = some underlying ∧
      inI128 (minted -
        (floorShares minted underlying
          ([⟨1, 5⟩, ⟨2, 5⟩] : List Recipient).dropLast).sum) = true ∧
      ([(1, 50), (2, -40)] : List (Address × Int)).map Prod.snd =
        floorShares minted underlying ([⟨1, 5⟩, ⟨2, 5⟩] : List Recipient).dropLast ++
          [minted -
            (floorShares minted underlying
              ([⟨1, 5⟩, ⟨2, 5⟩] : List Recipient).dropLast).sum] :=
  (distribute_remainder_underflow (cexEnv 10 1) [⟨1, 5⟩, ⟨2, 5⟩]).1 wTrNeg
    [(1, 50), (2, -40)] (by decide)

/-- Witness for C6 at a list of two recipients summing to `I128_MAX + 1`. -/
theorem distribute_overflow_rejection_witness :
    distribute (cexEnv 1 1) [⟨1, I128_MAX⟩, ⟨2, 1⟩] = ([], .error .totalOverflow) :=
  (distribute_overflow_rejection (cexEnv 1 1) [⟨1, I128_MAX⟩, ⟨2, 1⟩]).2
    (by decide) (by decide) (by decide) (by decide) (by decide) (by decide) (by decide)

/-- Witness for C7 at a vault minting 1007 units for a 1000 total. -/
theorem distribute_deposit_call_witness :
    ∃ total minted underlying,
      validate (cexEnv 1007 1007).vault [⟨1, 300⟩, ⟨2, 700⟩] = .ok total ∧
      (cexEnv 1007 1007).depositRes total = some minted ∧
      (cexEnv 1007 1007).valuationRes minted = some underlying ∧
      wTr1007 = ExtCall.depositCall [total] [total] (cexEnv 1007 1007).caller true ::
        ExtCall.transferCall (cexEnv 1007 1007).vault (cexEnv 1007 1007).caller
          (cexEnv 1007 1007).contractAddr minted ::
        ExtCall.valuationCall minted ::
        recipientCalls (cexEnv 1007 1007) [(1, 300), (2, 707)] ∧
      (([(1, 300), (2, 707)] : List (Address × Int)).map Prod.snd).sum = minted :=
  distribute_deposit_call (cexEnv 1007 1007) [⟨1, 300⟩, ⟨2, 700⟩] wTr1007
    [(1, 300), (2, 707)] (by decide)

/-- Witness for C8 at a call with the caller's authorization withheld. -/
theorem distribute_all_or_nothing_witness :
    distribute noAuthEnv [⟨1, 5⟩] = ([], .error .authFailed) :=
  (distribute_all_or_nothing noAuthEnv [⟨1, 5⟩]).1 (by decide)

/-- Witness for C9 at the 300/700 1:1 scenario. -/
theorem distribute_order_preservation_witness :
    ([(1, 300), (2, 700)] : List (Address × Int)).length =
        ([⟨1, 300⟩, ⟨2, 700⟩] : List Recipient).length ∧
      ([(1, 300), (2, 700)] : List (Address × Int)).map Prod.fst =
        ([⟨1, 300⟩, ⟨2, 700⟩] : List Recipient).map Recipient.address :=
  distribute_order_preservation idEnv [⟨1, 300⟩, ⟨2, 700⟩] wTrId [(1, 300), (2, 700)]
    (by decide)

/-- Witness for C10 at a vault valuation of 6 for a raw total of 10. -/
theorem distribute_valuation_basis_witness :
    ∃ total minted underlying,
      validate (cexEnv 10 6).vault [⟨1, 3⟩, ⟨2, 7⟩] = .ok total ∧
      (cexEnv 10 6).depositRes total = some minted ∧
      (cexEnv 10 6).valuationRes minted = some underlying ∧
      ([(1, 5), (2, 5)] : List (Address × Int)).map Prod.snd =
        floorShares minted underlying ([⟨1, 3⟩, ⟨2, 7⟩] : List Recipient).dropLast ++
          [minted -
            (floorShares minted underlying
              ([⟨1, 3⟩, ⟨2, 7⟩] : List Recipient).dropLast).sum] :=
  (distribute_valuation_basis (cexEnv 10 6) [⟨1, 3⟩, ⟨2, 7⟩]).1 wTrBasis
    [(1, 5), (2, 5)] (by decide)

example : validate 0 [] = .error .emptyRecipients := by decide
example : validate 0 [⟨1, 3⟩, ⟨2, 7⟩] = .ok 10 := by decide
example : validate 0 [⟨1, 3⟩, ⟨1, 7⟩] = .error .duplicateRecipient := by decide
example : validate 2 [⟨1, 3⟩, ⟨2, 7⟩] = .error .vaultRecipient := by decide
example : validate 0 [⟨1, 0⟩] = .error .nonPositiveAmount := by decide

example :
    (distribute ⟨10, 0, 99, true, fun t => some t, fun m => some m, fun _ _ _ => true⟩
      [⟨1, 300⟩, ⟨2, 700⟩]).2 = .ok [(1, 300), (2, 700)] := by decide

example :
    (distribute ⟨10, 0, 99, true, fun _ => some 10, fun _ => some 9, fun _ _ _ => true⟩
      [⟨1, 3⟩, ⟨2, 3⟩, ⟨3, 3⟩]).2 = .ok [(1, 3), (2, 3), (3, 4)] := by decide

example :
    (distribute ⟨10, 0, 99, true, fun _ => some 999, fun _ => some 500, fun _ _ _ => true⟩
      [⟨1, 500⟩]).2 = .ok [(1, 999)] := by decide

end DefindexDistributor
